import Mathlib

/-!
Verification of the filename-normalization core of the cmd-img repository
(`cmd.go`): the pure name transform `normalizeName`, the file-level apply
operation `imgNormalize`, and the batch drivers `imgNormalizeMany` /
`imgNormalizeAll`.  Go strings are modelled as lists of runes (`List Char`);
the filesystem is modelled as a finite map from paths to entries.
-/

namespace CmdImg

/-- A Go string, modelled as its list of runes. -/
abbrev Str := List Char

/-- Models Go `unicode.ToLower` as used by `strings.ToLower` in `normalizeName`:
ASCII uppercase letters (code points 65-90) are mapped to the corresponding
lowercase letters.  Go applies the full Unicode simple case mapping, which
agrees with this on ASCII; every property of the mapping used below
(idempotence, fixing `-` and `.`, preserving the regexp class `\s`) holds for
the full Unicode mapping as well. -/
def lowerChar (c : Char) : Char :=
  if 65 ≤ c.toNat ∧ c.toNat ≤ 90 then Char.ofNat (c.toNat + 32) else c

/-- Models `strings.ToLower`: rune-wise lowering. -/
def toLowerStr (s : Str) : Str := s.map lowerChar

/-- The character class of the Go regexp `\s` (RE2 Perl class):
tab, newline, form feed, carriage return, space. -/
def isSpace (c : Char) : Bool :=
  decide (c = ' ' ∨ c = '\t' ∨ c = '\n' ∨ c = '\u000C' ∨ c = '\r')

/-- The character class of the Go regexp `-` (a literal hyphen). -/
def isHyphen (c : Char) : Bool := decide (c = '-')

/-- Models `re.ReplaceAllString(out, "-")` for a regexp `cls+`: every maximal
run of characters of the class `p` is replaced by a single hyphen.  The flag
records whether we are inside a run whose hyphen has already been emitted. -/
def collapseRunsAux (p : Char → Bool) : Bool → Str → Str
  | _, [] => []
  | inRun, c :: cs =>
    if p c then
      if inRun then collapseRunsAux p true cs
      else '-' :: collapseRunsAux p true cs
    else c :: collapseRunsAux p false cs

/-- Models `regexp.MustCompile(`\s+`).ReplaceAllString(out, "-")`. -/
def replaceSpaceRuns (s : Str) : Str := collapseRunsAux isSpace false s

/-- Models `strings.ReplaceAll(out, " ", "-")` (single-character pattern). -/
def replaceAllSpace (s : Str) : Str :=
  s.map (fun c => if c = ' ' then '-' else c)

/-- Models `regexp.MustCompile(`-+`).ReplaceAllString(out, "-")`. -/
def collapseHyphenRuns (s : Str) : Str := collapseRunsAux isHyphen false s

/-- Models `strings.Trim(out, "-")`: drop leading and trailing hyphens. -/
def trimHyphens (s : Str) : Str :=
  (((s.dropWhile isHyphen).reverse).dropWhile isHyphen).reverse

/-- Models `normalizeName` from `cmd.go`: lowercase, replace whitespace runs
with a single hyphen, replace literal spaces (a second time, verbatim from the
source), collapse repeated hyphens, trim leading/trailing hyphens, and fall
back to `"file"` when the result is empty. -/
def normalizeName (s : Str) : Str :=
  let out := trimHyphens (collapseHyphenRuns (replaceAllSpace (replaceSpaceRuns (toLowerStr s))))
  if out = [] then "file".data else out

/-- The reference normalization function stated by the specification
(section 4.1): lowercase, replace every maximal whitespace run with one
hyphen, replace every maximal hyphen run with one hyphen, strip leading and
trailing hyphens, and return `"file"` when the result is empty. -/
def refNormalize (s : Str) : Str :=
  let out := trimHyphens (collapseHyphenRuns (replaceSpaceRuns (toLowerStr s)))
  if out = [] then "file".data else out

/-- Helper for `goExt`, working on the reversed path: collect the characters
(in reversed order) up to and including the final dot of the final
slash-separated element; empty when a separator or the start of the path is
reached first. -/
def goExtRev : Str → Str
  | [] => []
  | c :: cs =>
    if c = '/' then []
    else if c = '.' then [c]
    else
      match goExtRev cs with
      | [] => []
      | e => c :: e

/-- Models Go `filepath.Ext`: the suffix beginning at the final dot in the
final slash-separated element of the path; empty if there is no dot. -/
def goExt (s : Str) : Str := (goExtRev s.reverse).reverse

/-- Models Go `filepath.Base` (Unix): last element of the path after stripping
trailing slashes; `"."` for the empty path, `"/"` when the path consists of
separators only. -/
def goBase (s : Str) : Str :=
  if s = [] then ['.']
  else
    let t := ((s.reverse.dropWhile (fun c => decide (c = '/')))).reverse
    let b := ((t.reverse.takeWhile (fun c => decide (¬ c = '/')))).reverse
    if b = [] then ['/'] else b

/-- Path-element processing of Go `filepath.Clean` (Unix): empty and `.`
elements are dropped; `..` pops the previous element, accumulates at the start
of a relative path, and is dropped at the root of a rooted path. -/
def cleanElems (rooted : Bool) : List Str → List Str → List Str
  | acc, [] => acc.reverse
  | acc, e :: es =>
    if e = [] ∨ e = ['.'] then cleanElems rooted acc es
    else if e = ['.', '.'] then
      match acc with
      | [] => if rooted then cleanElems rooted [] es else cleanElems rooted [e] es
      | top :: rest =>
        if top = ['.', '.'] then cleanElems rooted (e :: acc) es
        else cleanElems rooted rest es
    else cleanElems rooted (e :: acc) es

/-- Models Go `filepath.Clean` (Unix) via its standard lexical description:
split on separators, process the elements with `cleanElems`, and reassemble;
the empty path cleans to `"."`. -/
def goClean (s : Str) : Str :=
  if s = [] then ['.']
  else
    let rooted := decide (s.head? = some '/')
    let elems := cleanElems rooted [] (s.splitOn '/')
    let body := (elems.intersperse ['/']).flatten
    if rooted then (if body = [] then ['/'] else '/' :: body)
    else (if body = [] then ['.'] else body)

/-- Models Go `filepath.Dir` (Unix): everything up to and including the final
separator, cleaned; `"."` when the path contains no separator. -/
def goDir (s : Str) : Str :=
  goClean ((s.reverse.dropWhile (fun c => decide (¬ c = '/'))).reverse)

/-- Models Go `filepath.Join` on two elements: empty elements are skipped and
the rest are joined with a separator and cleaned; all-empty input yields the
empty path. -/
def goJoin (a b : Str) : Str :=
  if a = [] then (if b = [] then [] else goClean b)
  else goClean (a ++ '/' :: b)

/-- Models `strings.TrimSuffix`: remove the suffix when present. -/
def trimSuffixStr (s suffix : Str) : Str :=
  if suffix.isSuffixOf s then s.take (s.length - suffix.length) else s

/-- Models `strings.HasPrefix`. -/
def hasPrefixStr (s pre : Str) : Bool := pre.isPrefixOf s

/-- The `ext` computed by `imgNormalize`: `filepath.Ext` of the base name. -/
def extOf (path : Str) : Str := goExt (goBase path)

/-- The `base` computed by `imgNormalize`: the base name with the extension
trimmed off. -/
def baseOf (path : Str) : Str := trimSuffixStr (goBase path) (extOf path)

/-- The `extLower` computed by `imgNormalize`: the lowercased extension. -/
def extLowerOf (path : Str) : Str := toLowerStr (extOf path)

/-- The new file name computed by `imgNormalize` for a path: base name of the
path, extension split off, normalized base, lowercased extension (with the
defensive leading-dot check of the source), reassembled. -/
def computeNewName (path : Str) : Str :=
  if extLowerOf path = [] then normalizeName (baseOf path)
  else
    normalizeName (baseOf path) ++
      (if hasPrefixStr (extLowerOf path) ['.'] then extLowerOf path
       else '.' :: extLowerOf path)

/-- The new path computed by `imgNormalize`: directory joined with the new
name. -/
def computeNewPath (path : Str) : Str :=
  goJoin (goDir path) (computeNewName path)

/-- A filesystem entry: a regular file with its byte contents, or a
directory. -/
inductive Entry
  | file (content : List Nat)
  | dir
deriving DecidableEq

/-- The filesystem: a finite map from paths to entries, as an association
list (later bindings shadow earlier ones; `writeFS` keeps it duplicate-free). -/
abbrev FS := List (Str × Entry)

/-- Models `os.Stat`-style lookup of a path. -/
def lookupFS : FS → Str → Option Entry
  | [], _ => none
  | (q, e) :: fs, p => if q = p then some e else lookupFS fs p

/-- Models `os.Remove` on the map (the entry for the path is dropped). -/
def removeFS : FS → Str → FS
  | [], _ => []
  | (q, e) :: fs, p => if q = p then removeFS fs p else (q, e) :: removeFS fs p

/-- Models `os.Create` plus a full byte copy: bind the path to the entry,
replacing any previous binding. -/
def writeFS (fs : FS) (p : Str) (e : Entry) : FS :=
  (p, e) :: removeFS fs p

/-- The world an `imgNormalize` call acts on: the filesystem plus the set of
paths whose `os.Remove` fails (fault injection for the delete step; the Go
code treats a removal error as opaque). -/
structure World where
  fs : FS
  removeFails : List Str
deriving DecidableEq

/-- The distinguishable error values produced by `imgNormalize`
(`fmt.Errorf` messages in the source, modelled as tagged values). -/
inductive NormErr
  | notFound (path : Str)
  | isDirectory (path : Str)
  | conflict (newPath : Str)
  | removeFailed (newPath path : Str)
deriving DecidableEq

/-- The success messages printed by `imgNormalize`:
`No change`, `Created ... from ...`, `Renamed ... -> ...`. -/
inductive NormOutcome
  | noChange
  | created
  | renamed
deriving DecidableEq

instance {ε α : Type} [DecidableEq ε] [DecidableEq α] : DecidableEq (Except ε α) := fun x y =>
  match x, y with
  | Except.error a, Except.error b =>
    if h : a = b then isTrue (by rw [h])
    else isFalse (fun hh => by injection hh; contradiction)
  | Except.error _, Except.ok _ => isFalse (fun hh => Except.noConfusion hh)
  | Except.ok _, Except.error _ => isFalse (fun hh => Except.noConfusion hh)
  | Except.ok a, Except.ok b =>
    if h : a = b then isTrue (by rw [h])
    else isFalse (fun hh => by injection hh; contradiction)

/-- Models `imgNormalize` from `cmd.go`: stat the path (missing or directory
input fails), compute the new path from the normalized base and lowercased
extension, report `noChange` when it equals the original, fail on a
pre-existing target, otherwise copy the bytes to the new path and, when
`deleteOrig` is set, remove the original (surfacing an error and keeping the
copy when the removal fails). -/
def imgNormalize (w : World) (path : Str) (deleteOrig : Bool) :
    Except NormErr NormOutcome × World :=
  match lookupFS w.fs path with
  | none => (Except.error (NormErr.notFound path), w)
  | some Entry.dir => (Except.error (NormErr.isDirectory path), w)
  | some (Entry.file content) =>
    if computeNewPath path = path then (Except.ok NormOutcome.noChange, w)
    else
      match lookupFS w.fs (computeNewPath path) with
      | some _ => (Except.error (NormErr.conflict (computeNewPath path)), w)
      | none =>
        if deleteOrig then
          if path ∈ w.removeFails then
            (Except.error (NormErr.removeFailed (computeNewPath path) path),
             { w with fs := writeFS w.fs (computeNewPath path) (Entry.file content) })
          else
            (Except.ok NormOutcome.renamed,
             { w with fs := removeFS (writeFS w.fs (computeNewPath path) (Entry.file content)) path })
        else
          (Except.ok NormOutcome.created,
           { w with fs := writeFS w.fs (computeNewPath path) (Entry.file content) })

/-- Helper for `imgNormalizeMany`: process the files in order, collecting the
per-file errors (tagged with the offending path, as the Go code prefixes each
message with the file name) and threading the world through. -/
def imgNormalizeManyAux (del : Bool) : World → List Str → List (Str × NormErr) × World
  | w, [] => ([], w)
  | w, f :: fs =>
    match (imgNormalize w f del).1 with
    | Except.ok _ => imgNormalizeManyAux del (imgNormalize w f del).2 fs
    | Except.error e =>
      ((f, e) :: (imgNormalizeManyAux del (imgNormalize w f del).2 fs).1,
       (imgNormalizeManyAux del (imgNormalize w f del).2 fs).2)

/-- Models `imgNormalizeMany`: apply `imgNormalize` to each file, never
aborting; succeed exactly when the collected error list is empty, otherwise
report the aggregate. -/
def imgNormalizeMany (w : World) (files : List Str) (del : Bool) :
    Except (List (Str × NormErr)) Unit × World :=
  (if (imgNormalizeManyAux del w files).1 = [] then Except.ok ()
   else Except.error (imgNormalizeManyAux del w files).1,
   (imgNormalizeManyAux del w files).2)

/-- Models `imgNormalizeAll`: apply `imgNormalize` to every non-directory
entry of the given directory listing (the names `os.ReadDir(".")` returns),
aggregating errors exactly as `imgNormalizeMany` does. -/
def imgNormalizeAll (w : World) (entries : List (Str × Entry)) (del : Bool) :
    Except (List (Str × NormErr)) Unit × World :=
  imgNormalizeMany w ((entries.filter (fun e => decide (¬ e.2 = Entry.dir))).map (·.1)) del

/-- The trimmed pipeline shared by `normalizeName` and `refNormalize`: the
value before the empty-string fallback is applied. -/
def trimmedPipeline (s : Str) : Str :=
  trimHyphens (collapseHyphenRuns (replaceSpaceRuns (toLowerStr s)))

/-- A lowercase ASCII alphanumeric or hyphen, the character class asserted by
the specification's invariant on normalized base names. -/
def isLowerAlnumHyphen (c : Char) : Bool :=
  decide (('a' ≤ c ∧ c ≤ 'z') ∨ ('0' ≤ c ∧ c ≤ '9') ∨ c = '-')

/-- Boolean non-hyphen test used to state which characters of the normalized
name come from the input. -/
def nonHyphen (c : Char) : Bool := decide (¬ c = '-')

/-- The adjacency relation forbidding two consecutive hyphens. -/
def NoTwoHyphens (a b : Char) : Prop := ¬ (a = '-' ∧ b = '-')

instance : DecidableRel NoTwoHyphens := fun a b =>
  inferInstanceAs (Decidable (¬ (a = '-' ∧ b = '-')))

end CmdImg

namespace CmdImg

theorem toNat_ofNat_lt (n : Nat) (h : n < 55296) : (Char.ofNat n).toNat = n := by
  have hv : n.isValidChar := Or.inl h
  unfold Char.ofNat
  rw [dif_pos hv]
  unfold Char.ofNatAux Char.toNat
  simp [UInt32.toNat, UInt32.ofNatCore]

theorem lowerChar_toNat_upper (c : Char) (h1 : 65 ≤ c.toNat) (h2 : c.toNat ≤ 90) :
    (lowerChar c).toNat = c.toNat + 32 := by
  unfold lowerChar
  rw [if_pos ⟨h1, h2⟩]
  exact toNat_ofNat_lt _ (by omega)

theorem lowerChar_eq_self (c : Char) (h : ¬ (65 ≤ c.toNat ∧ c.toNat ≤ 90)) :
    lowerChar c = c := by
  unfold lowerChar
  exact if_neg h

theorem lowerChar_idem (c : Char) : lowerChar (lowerChar c) = lowerChar c := by
  by_cases h : 65 ≤ c.toNat ∧ c.toNat ≤ 90
  · have ht := lowerChar_toNat_upper c h.1 h.2
    exact lowerChar_eq_self _ (by omega)
  · rw [lowerChar_eq_self c h]
    exact lowerChar_eq_self c h

theorem isSpace_false_of_big (c : Char) (h : 33 ≤ c.toNat) : isSpace c = false := by
  simp only [isSpace, decide_eq_false_iff_not]
  rintro (rfl | rfl | rfl | rfl | rfl) <;> revert h <;> decide

theorem isSpace_lowerChar (c : Char) : isSpace (lowerChar c) = isSpace c := by
  by_cases h : 65 ≤ c.toNat ∧ c.toNat ≤ 90
  · have ht := lowerChar_toNat_upper c h.1 h.2
    rw [isSpace_false_of_big _ (by omega), isSpace_false_of_big _ (by omega)]
  · rw [lowerChar_eq_self c h]

theorem lowerChar_hyphen : lowerChar '-' = '-' := by decide

theorem lowerChar_dot : lowerChar '.' = '.' := by decide

theorem lowerChar_ne_hyphen (c : Char) (h : ¬ c = '-') : ¬ lowerChar c = '-' := by
  by_cases hu : 65 ≤ c.toNat ∧ c.toNat ≤ 90
  · have ht := lowerChar_toNat_upper c hu.1 hu.2
    intro he
    have h45 : (lowerChar c).toNat = 45 := by rw [he]; decide
    omega
  · rw [lowerChar_eq_self c hu]
    exact h

theorem mem_collapseRunsAux (p : Char → Bool) (c : Char) :
    ∀ (b : Bool) (l : Str), c ∈ collapseRunsAux p b l →
      c = '-' ∨ (p c = false ∧ c ∈ l) := by
  intro b l
  induction l generalizing b with
  | nil => intro h; simp [collapseRunsAux] at h
  | cons d ds ih =>
    intro h
    by_cases hd : p d = true
    · cases b with
      | true =>
        simp only [collapseRunsAux, hd, if_true] at h
        rcases ih true h with h1 | h2
        · exact Or.inl h1
        · exact Or.inr ⟨h2.1, List.mem_cons_of_mem _ h2.2⟩
      | false =>
        simp only [collapseRunsAux, hd, if_true] at h
        rcases List.mem_cons.mp h with h1 | h1
        · exact Or.inl h1
        · rcases ih true h1 with h2 | h2
          · exact Or.inl h2
          · exact Or.inr ⟨h2.1, List.mem_cons_of_mem _ h2.2⟩
    · have hd' : p d = false := by revert hd; cases p d <;> simp
      simp only [collapseRunsAux, hd', Bool.false_eq_true, if_false] at h
      rcases List.mem_cons.mp h with h1 | h1
      · subst h1; exact Or.inr ⟨hd', List.mem_cons_self _ _⟩
      · rcases ih false h1 with h2 | h2
        · exact Or.inl h2
        · exact Or.inr ⟨h2.1, List.mem_cons_of_mem _ h2.2⟩

theorem collapseRunsAux_id (p : Char → Bool) :
    ∀ (b : Bool) (l : Str), (∀ c ∈ l, p c = false) → collapseRunsAux p b l = l := by
  intro b l
  induction l generalizing b with
  | nil => intro _; rfl
  | cons d ds ih =>
    intro h
    have hd : p d = false := h d (List.mem_cons_self _ _)
    simp only [collapseRunsAux, hd, Bool.false_eq_true, if_false]
    rw [ih false (fun c hc => h c (List.mem_cons_of_mem _ hc))]

theorem isSpace_false_mem_replaceSpaceRuns (l : Str) (c : Char)
    (h : c ∈ replaceSpaceRuns l) : isSpace c = false := by
  rcases mem_collapseRunsAux isSpace c false l h with h1 | h2
  · subst h1; decide
  · exact h2.1

theorem replaceAllSpace_of_no_space (l : Str) (h : ∀ c ∈ l, isSpace c = false) :
    replaceAllSpace l = l := by
  unfold replaceAllSpace
  have hp : ∀ c ∈ l, (if c = ' ' then '-' else c) = c := by
    intro c hc
    have hs := h c hc
    have hne : ¬ c = ' ' := by
      intro he
      subst he
      simp [isSpace] at hs
    exact if_neg hne
  rw [List.map_congr_left hp, List.map_id']

theorem normalizeName_eq_refNormalize (s : Str) : normalizeName s = refNormalize s := by
  unfold normalizeName refNormalize
  rw [replaceAllSpace_of_no_space (replaceSpaceRuns (toLowerStr s))
    (fun c hc => isSpace_false_mem_replaceSpaceRuns _ c hc)]

theorem refNormalize_eq_trimmed (s : Str) :
    refNormalize s = if trimmedPipeline s = [] then "file".data else trimmedPipeline s := rfl

theorem isHyphen_eq_false_iff (c : Char) : isHyphen c = false ↔ ¬ c = '-' := by
  simp [isHyphen]

theorem head_collapseRunsAux_hyphen_true (l : Str) (c : Char)
    (h : (collapseRunsAux isHyphen true l).head? = some c) : ¬ c = '-' := by
  induction l with
  | nil => simp [collapseRunsAux] at h
  | cons d ds ih =>
    by_cases hd : isHyphen d = true
    · simp only [collapseRunsAux, hd, if_true] at h
      exact ih h
    · have hd' : isHyphen d = false := by revert hd; cases isHyphen d <;> simp
      simp only [collapseRunsAux, hd', Bool.false_eq_true, if_false, List.head?_cons,
        Option.some.injEq] at h
      subst h
      exact (isHyphen_eq_false_iff _).mp hd'

theorem chain_collapseRunsAux_hyphen (l : Str) :
    ∀ b : Bool, List.Chain' NoTwoHyphens (collapseRunsAux isHyphen b l) := by
  induction l with
  | nil => intro b; simp [collapseRunsAux]
  | cons d ds ih =>
    intro b
    by_cases hd : isHyphen d = true
    · cases b with
      | true => simp only [collapseRunsAux, hd, if_true]; exact ih true
      | false =>
        simp only [collapseRunsAux, hd, if_true, Bool.false_eq_true, if_false]
        rw [List.chain'_cons']
        refine ⟨?_, ih true⟩
        intro y hy
        intro hcon
        exact head_collapseRunsAux_hyphen_true ds y hy hcon.2
    · have hd' : isHyphen d = false := by revert hd; cases isHyphen d <;> simp
      simp only [collapseRunsAux, hd', Bool.false_eq_true, if_false]
      rw [List.chain'_cons']
      refine ⟨?_, ih false⟩
      intro y _
      intro hcon
      exact (isHyphen_eq_false_iff d).mp hd' hcon.1

theorem collapseRunsAux_hyphen_id (l : Str) (h : List.Chain' NoTwoHyphens l) :
    collapseRunsAux isHyphen false l = l ∧
      ((∀ c, l.head? = some c → ¬ c = '-') → collapseRunsAux isHyphen true l = l) := by
  induction l with
  | nil => exact ⟨rfl, fun _ => rfl⟩
  | cons d ds ih =>
    have hds : List.Chain' NoTwoHyphens ds := List.Chain'.tail h
    have ihds := ih hds
    by_cases hd : d = '-'
    · subst hd
      have hhead : ∀ c, ds.head? = some c → ¬ c = '-' := by
        intro c hc hcon
        subst hcon
        rcases ds with _ | ⟨e, es⟩
        · simp at hc
        · simp only [List.head?_cons, Option.some.injEq] at hc
          subst hc
          exact (List.chain'_cons'.mp h).1 '-' (by simp) ⟨rfl, rfl⟩
      constructor
      · simp only [collapseRunsAux, isHyphen, decide_eq_true_eq, if_pos rfl, if_true,
          Bool.false_eq_true, if_false]
        rw [ihds.2 hhead]
      · intro hh
        exact absurd rfl (hh '-' (by simp))
    · have hd' : isHyphen d = false := (isHyphen_eq_false_iff d).mpr hd
      constructor
      · simp only [collapseRunsAux, hd', Bool.false_eq_true, if_false]
        rw [ihds.1]
      · intro _
        simp only [collapseRunsAux, hd', Bool.false_eq_true, if_false]
        rw [ihds.1]

theorem filter_collapseRunsAux (p : Char → Bool) (l : Str) :
    ∀ b : Bool, (collapseRunsAux p b l).filter nonHyphen =
      l.filter (fun c => !(p c) && nonHyphen c) := by
  induction l with
  | nil => intro b; rfl
  | cons d ds ih =>
    intro b
    by_cases hd : p d = true
    · cases b with
      | true =>
        simp only [collapseRunsAux, hd, if_true]
        rw [ih true, List.filter_cons_of_neg (by simp [hd])]
      | false =>
        simp only [collapseRunsAux, hd, if_true, Bool.false_eq_true, if_false]
        rw [List.filter_cons_of_neg (by simp [nonHyphen]), ih true,
          List.filter_cons_of_neg (by simp [hd])]
    · have hd' : p d = false := by revert hd; cases p d <;> simp
      simp only [collapseRunsAux, hd', Bool.false_eq_true, if_false]
      by_cases hn : nonHyphen d = true
      · rw [List.filter_cons_of_pos (by simp [hn]), ih false,
          List.filter_cons_of_pos (by simp [hd', hn])]
      · have hn' : nonHyphen d = false := by revert hn; cases nonHyphen d <;> simp
        rw [List.filter_cons_of_neg (by simp [hn']), ih false,
          List.filter_cons_of_neg (by simp [hn'])]

theorem dropWhile_head_false (p : Char → Bool) (l : Str) (c : Char)
    (h : (l.dropWhile p).head? = some c) : p c = false := by
  induction l with
  | nil => simp [List.dropWhile] at h
  | cons d ds ih =>
    by_cases hd : p d = true
    · rw [List.dropWhile_cons_of_pos hd] at h
      exact ih h
    · have hd' : p d = false := by revert hd; cases p d <;> simp
      rw [List.dropWhile_cons_of_neg (by simp [hd'])] at h
      simp only [List.head?_cons, Option.some.injEq] at h
      subst h
      exact hd'

theorem dropWhile_eq_self_of_head (p : Char → Bool) (l : Str)
    (h : ∀ c, l.head? = some c → p c = false) : l.dropWhile p = l := by
  cases l with
  | nil => rfl
  | cons d ds =>
    have hd := h d (by simp)
    rw [List.dropWhile_cons_of_neg (by simp [hd])]

theorem getLast?_dropWhile_or (p : Char → Bool) (l : Str) :
    l.dropWhile p = [] ∨ (l.dropWhile p).getLast? = l.getLast? := by
  induction l with
  | nil => exact Or.inl rfl
  | cons d ds ih =>
    by_cases hd : p d = true
    · rw [List.dropWhile_cons_of_pos hd]
      rcases ds with _ | ⟨e, es⟩
      · exact Or.inl rfl
      · rcases ih with h1 | h1
        · exact Or.inl h1
        · right
          rw [h1, List.getLast?_cons_cons]
    · have hd' : p d = false := by revert hd; cases p d <;> simp
      rw [List.dropWhile_cons_of_neg (by simp [hd'])]
      exact Or.inr rfl

theorem filter_dropWhile_hyphen (l : Str) :
    (l.dropWhile isHyphen).filter nonHyphen = l.filter nonHyphen := by
  induction l with
  | nil => rfl
  | cons d ds ih =>
    by_cases hd : d = '-'
    · subst hd
      rw [List.dropWhile_cons_of_pos (by simp [isHyphen]), ih,
        List.filter_cons_of_neg (by simp [nonHyphen])]
    · rw [List.dropWhile_cons_of_neg (by simp [isHyphen, hd])]

theorem mem_dropWhile (p : Char → Bool) (l : Str) (c : Char)
    (h : c ∈ l.dropWhile p) : c ∈ l :=
  (List.dropWhile_sublist p).mem h

theorem chain_dropWhile (p : Char → Bool) (l : Str)
    (h : List.Chain' NoTwoHyphens l) : List.Chain' NoTwoHyphens (l.dropWhile p) := by
  induction l with
  | nil => exact h
  | cons d ds ih =>
    by_cases hd : p d = true
    · rw [List.dropWhile_cons_of_pos hd]
      exact ih (List.Chain'.tail h)
    · have hd' : p d = false := by revert hd; cases p d <;> simp
      rw [List.dropWhile_cons_of_neg (by simp [hd'])]
      exact h

theorem chain_reverse_noTwo (l : Str) (h : List.Chain' NoTwoHyphens l) :
    List.Chain' NoTwoHyphens l.reverse := by
  rw [List.chain'_reverse]
  exact List.Chain'.imp (fun a b hab hcon => hab ⟨hcon.2, hcon.1⟩) h

theorem trim_head_not_hyphen (l : Str) (c : Char)
    (h : (trimHyphens l).head? = some c) : ¬ c = '-' := by
  unfold trimHyphens at h
  rw [List.head?_reverse] at h
  rcases getLast?_dropWhile_or isHyphen ((l.dropWhile isHyphen).reverse) with h1 | h1
  · rw [h1] at h
    simp at h
  · rw [h1, List.getLast?_reverse] at h
    exact (isHyphen_eq_false_iff c).mp (dropWhile_head_false isHyphen l c h)

theorem trim_last_not_hyphen (l : Str) (c : Char)
    (h : (trimHyphens l).getLast? = some c) : ¬ c = '-' := by
  unfold trimHyphens at h
  rw [List.getLast?_reverse] at h
  exact (isHyphen_eq_false_iff c).mp
    (dropWhile_head_false isHyphen ((l.dropWhile isHyphen).reverse) c h)

theorem trimHyphens_id (l : Str)
    (hh : ∀ c, l.head? = some c → ¬ c = '-')
    (hl : ∀ c, l.getLast? = some c → ¬ c = '-') : trimHyphens l = l := by
  unfold trimHyphens
  have h1 : l.dropWhile isHyphen = l :=
    dropWhile_eq_self_of_head isHyphen l
      (fun c hc => (isHyphen_eq_false_iff c).mpr (hh c hc))
  rw [h1]
  have h2 : l.reverse.dropWhile isHyphen = l.reverse :=
    dropWhile_eq_self_of_head isHyphen l.reverse
      (fun c hc => (isHyphen_eq_false_iff c).mpr (hl c (by rwa [List.head?_reverse] at hc)))
  rw [h2, List.reverse_reverse]

theorem mem_trimHyphens (l : Str) (c : Char) (h : c ∈ trimHyphens l) : c ∈ l := by
  unfold trimHyphens at h
  rw [List.mem_reverse] at h
  have h1 := mem_dropWhile isHyphen _ c h
  rw [List.mem_reverse] at h1
  exact mem_dropWhile isHyphen l c h1

theorem chain_trimHyphens (l : Str) (h : List.Chain' NoTwoHyphens l) :
    List.Chain' NoTwoHyphens (trimHyphens l) := by
  unfold trimHyphens
  exact chain_reverse_noTwo _ (chain_dropWhile _ _ (chain_reverse_noTwo _ (chain_dropWhile _ _ h)))

theorem filter_trimHyphens (l : Str) :
    (trimHyphens l).filter nonHyphen = l.filter nonHyphen := by
  unfold trimHyphens
  rw [List.filter_reverse, filter_dropWhile_hyphen, List.filter_reverse,
    filter_dropWhile_hyphen, List.reverse_reverse]

theorem trimmedPipeline_props (s : Str) (c : Char) (h : c ∈ trimmedPipeline s) :
    isSpace c = false ∧ lowerChar c = c := by
  unfold trimmedPipeline at h
  have h1 : c ∈ collapseHyphenRuns (replaceSpaceRuns (toLowerStr s)) := mem_trimHyphens _ c h
  rcases mem_collapseRunsAux isHyphen c false _ h1 with h2 | h2
  · subst h2
    exact ⟨by decide, lowerChar_hyphen⟩
  · have hsp := isSpace_false_mem_replaceSpaceRuns _ c h2.2
    refine ⟨hsp, ?_⟩
    rcases mem_collapseRunsAux isSpace c false _ h2.2 with h3 | h3
    · subst h3; exact lowerChar_hyphen
    · rcases List.mem_map.mp h3.2 with ⟨x, _, hx⟩
      subst hx
      exact lowerChar_idem x

theorem trimmedPipeline_chain (s : Str) :
    List.Chain' NoTwoHyphens (trimmedPipeline s) :=
  chain_trimHyphens _ (chain_collapseRunsAux_hyphen _ false)

theorem refNormalize_fixed (t : Str)
    (hmem : ∀ c ∈ t, isSpace c = false ∧ lowerChar c = c)
    (hchain : List.Chain' NoTwoHyphens t)
    (hh : ∀ c, t.head? = some c → ¬ c = '-')
    (hl : ∀ c, t.getLast? = some c → ¬ c = '-')
    (hne : ¬ t = []) : refNormalize t = t := by
  unfold refNormalize
  have e1 : toLowerStr t = t := by
    unfold toLowerStr
    rw [List.map_congr_left (fun c hc => (hmem c hc).2), List.map_id']
  rw [e1]
  have e2 : replaceSpaceRuns t = t :=
    collapseRunsAux_id isSpace false t (fun c hc => (hmem c hc).1)
  rw [e2]
  have e3 : collapseHyphenRuns t = t := (collapseRunsAux_hyphen_id t hchain).1
  rw [e3]
  have e4 : trimHyphens t = t := trimHyphens_id t hh hl
  rw [e4, if_neg hne]

theorem filter_trimmedPipeline (s : Str) :
    (trimmedPipeline s).filter nonHyphen =
      (toLowerStr s).filter (fun c => !(isSpace c) && nonHyphen c) := by
  unfold trimmedPipeline collapseHyphenRuns replaceSpaceRuns
  rw [filter_trimHyphens, filter_collapseRunsAux isHyphen _ false]
  have hcongr : ∀ c ∈ collapseRunsAux isSpace false (toLowerStr s),
      (fun c => !(isHyphen c) && nonHyphen c) c = nonHyphen c := by
    intro c _
    by_cases hc : c = '-' <;> simp [isHyphen, nonHyphen, hc]
  rw [List.filter_congr hcongr, filter_collapseRunsAux isSpace _ false]

theorem trimmedPipeline_ne_empty (s : Str)
    (h : ∃ c ∈ s, isSpace c = false ∧ ¬ c = '-') : ¬ trimmedPipeline s = [] := by
  rcases h with ⟨c, hc, hsp, hhy⟩
  intro hemp
  have hfil := filter_trimmedPipeline s
  rw [hemp] at hfil
  have hd : lowerChar c ∈ toLowerStr s := List.mem_map.mpr ⟨c, hc, rfl⟩
  have hmem : lowerChar c ∈
      (toLowerStr s).filter (fun c => !(isSpace c) && nonHyphen c) := by
    rw [List.mem_filter]
    refine ⟨hd, ?_⟩
    rw [isSpace_lowerChar, hsp]
    have := lowerChar_ne_hyphen c hhy
    simp [nonHyphen, this]
  rw [← hfil] at hmem
  simp at hmem

theorem normalizeName_cases (s : Str) :
    (trimmedPipeline s = [] ∧ normalizeName s = "file".data) ∨
      (¬ trimmedPipeline s = [] ∧ normalizeName s = trimmedPipeline s) := by
  rw [normalizeName_eq_refNormalize, refNormalize_eq_trimmed]
  by_cases h : trimmedPipeline s = []
  · exact Or.inl ⟨h, if_pos h⟩
  · exact Or.inr ⟨h, if_neg h⟩

theorem normalizeName_length_pos (s : Str) : 0 < (normalizeName s).length := by
  rcases normalizeName_cases s with ⟨_, h⟩ | ⟨hne, h⟩
  · rw [h]; decide
  · rw [h]
    exact List.length_pos.mpr hne

theorem goExtRev_getLast_dot (r : Str) :
    goExtRev r = [] ∨ (goExtRev r).getLast? = some '.' := by
  induction r with
  | nil => exact Or.inl rfl
  | cons c cs ih =>
    by_cases hsl : c = '/'
    · left; simp [goExtRev, hsl]
    · by_cases hdot : c = '.'
      · right; simp [goExtRev, hsl, hdot]
      · rcases he : goExtRev cs with _ | ⟨d, ds⟩
        · left; simp [goExtRev, hsl, hdot, he]
        · right
          rcases ih with h1 | h1
          · rw [he] at h1; exact absurd h1 (by simp)
          · rw [he] at h1
            simp only [goExtRev, hsl, hdot, he, if_false]
            simpa [List.getLast?_cons_cons] using h1

theorem goExtRev_exists_rest (r : Str) : ∃ t, r = goExtRev r ++ t := by
  induction r with
  | nil => exact ⟨[], rfl⟩
  | cons c cs ih =>
    by_cases hsl : c = '/'
    · exact ⟨c :: cs, by simp [goExtRev, hsl]⟩
    · by_cases hdot : c = '.'
      · exact ⟨cs, by simp [goExtRev, hsl, hdot]⟩
      · rcases he : goExtRev cs with _ | ⟨d, ds⟩
        · exact ⟨c :: cs, by simp [goExtRev, hsl, hdot, he]⟩
        · rcases ih with ⟨t, ht⟩
          rw [he] at ht
          exact ⟨t, by simp [goExtRev, hsl, hdot, he, ← ht]⟩

theorem goExt_head_dot (s : Str) : goExt s = [] ∨ (goExt s).head? = some '.' := by
  rcases goExtRev_getLast_dot s.reverse with h | h
  · left; unfold goExt; rw [h]; rfl
  · right; unfold goExt; rw [List.head?_reverse]; exact h

theorem goExt_append_rest (s : Str) : ∃ t, s = t ++ goExt s := by
  rcases goExtRev_exists_rest s.reverse with ⟨t, ht⟩
  refine ⟨t.reverse, ?_⟩
  unfold goExt
  calc s = s.reverse.reverse := (List.reverse_reverse s).symm
    _ = (goExtRev s.reverse ++ t).reverse := by rw [← ht]
    _ = t.reverse ++ (goExtRev s.reverse).reverse := List.reverse_append _ _

theorem trimSuffixStr_append_goExt (s : Str) :
    trimSuffixStr s (goExt s) ++ goExt s = s := by
  rcases goExt_append_rest s with ⟨t, ht⟩
  unfold trimSuffixStr
  have hsuf : (goExt s).isSuffixOf s = true :=
    List.isSuffixOf_iff_suffix.mpr ⟨t, ht.symm⟩
  rw [if_pos hsuf]
  have hslen : s.length = t.length + (goExt s).length := by
    conv_lhs => rw [ht]
    exact List.length_append _ _
  have hlen : t.length = s.length - (goExt s).length := by omega
  rw [← hlen]
  nth_rewrite 1 [ht]
  rw [List.take_left]
  exact ht.symm

theorem baseOf_append_extOf (path : Str) : baseOf path ++ extOf path = goBase path :=
  trimSuffixStr_append_goExt (goBase path)

theorem toLowerStr_getD (l : Str) : ∀ i : Nat,
    (toLowerStr l).getD i '.' = lowerChar (l.getD i '.') := by
  induction l with
  | nil => intro i; simp [toLowerStr]; decide
  | cons c cs ih =>
    intro i
    cases i with
    | zero => simp [toLowerStr]
    | succ j => simpa [toLowerStr] using ih j

theorem computeNewName_eq (path : Str) :
    computeNewName path = normalizeName (baseOf path) ++ toLowerStr (extOf path) := by
  unfold computeNewName extLowerOf
  rcases hl : extOf path with _ | ⟨d, ds⟩
  · simp [toLowerStr]
  · rcases goExt_head_dot (goBase path) with hext | hext
    · unfold extOf at hl
      rw [hext] at hl
      exact absurd hl (by simp)
    · unfold extOf at hl
      rw [hl] at hext
      simp only [List.head?_cons, Option.some.injEq] at hext
      subst hext
      have hlow : toLowerStr ('.' :: ds) = '.' :: toLowerStr ds := by
        simp [toLowerStr, lowerChar_dot]
      rw [hlow]
      have hpre : hasPrefixStr ('.' :: toLowerStr ds) ['.'] = true := by
        simp [hasPrefixStr, List.isPrefixOf]
      rw [if_neg (by simp), if_pos hpre]

theorem refNormalize_idem (s : Str) :
    refNormalize (refNormalize s) = refNormalize s := by
  by_cases h : trimmedPipeline s = []
  · rw [refNormalize_eq_trimmed s, if_pos h]
    decide
  · rw [refNormalize_eq_trimmed s, if_neg h]
    exact refNormalize_fixed _ (fun c hc => trimmedPipeline_props s c hc)
      (trimmedPipeline_chain s)
      (fun c hc => trim_head_not_hyphen _ c hc)
      (fun c hc => trim_last_not_hyphen _ c hc) h

theorem normalizeName_head_not_hyphen (s : Str) (c : Char)
    (h : (normalizeName s).head? = some c) : ¬ c = '-' := by
  rcases normalizeName_cases s with ⟨_, he⟩ | ⟨_, he⟩
  · rw [he] at h
    simp only [List.head?_cons, Option.some.injEq] at h
    subst h
    decide
  · rw [he] at h
    exact trim_head_not_hyphen _ c h

theorem normalizeName_last_not_hyphen (s : Str) (c : Char)
    (h : (normalizeName s).getLast? = some c) : ¬ c = '-' := by
  rcases normalizeName_cases s with ⟨_, he⟩ | ⟨_, he⟩
  · rw [he] at h
    have : c = 'e' := by
      have hx : ("file".data).getLast? = some 'e' := by decide
      rw [hx] at h
      exact (Option.some.injEq _ _).mp h.symm
    subst this
    decide
  · rw [he] at h
    exact trim_last_not_hyphen _ c h

theorem chain_file_literal : List.Chain' NoTwoHyphens ['f', 'i', 'l', 'e'] :=
  List.Chain.cons (fun hc => absurd hc.1 (by decide))
    (List.Chain.cons (fun hc => absurd hc.1 (by decide))
      (List.Chain.cons (fun hc => absurd hc.1 (by decide)) List.Chain.nil))

theorem normalizeName_chain (s : Str) :
    List.Chain' NoTwoHyphens (normalizeName s) := by
  rcases normalizeName_cases s with ⟨_, he⟩ | ⟨_, he⟩
  · rw [he]; exact chain_file_literal
  · rw [he]; exact trimmedPipeline_chain s

theorem normalizeName_mem_props (s : Str) (c : Char) (h : c ∈ normalizeName s) :
    isSpace c = false ∧ lowerChar c = c := by
  rcases normalizeName_cases s with ⟨_, he⟩ | ⟨_, he⟩
  · rw [he] at h
    have : ∀ d ∈ "file".data, isSpace d = false ∧ lowerChar d = d := by decide
    exact this c h
  · rw [he] at h
    exact trimmedPipeline_props s c h

theorem imgNormalize_noChange (w : World) (path : Str) (del : Bool) (content : List Nat)
    (hstat : lookupFS w.fs path = some (Entry.file content))
    (heq : computeNewPath path = path) :
    imgNormalize w path del = (Except.ok NormOutcome.noChange, w) := by
  simp only [imgNormalize, hstat, heq, if_pos rfl, if_true]

theorem imgNormalize_conflict (w : World) (path : Str) (del : Bool) (content : List Nat)
    (e : Entry) (hstat : lookupFS w.fs path = some (Entry.file content))
    (hne : ¬ computeNewPath path = path)
    (hconf : lookupFS w.fs (computeNewPath path) = some e) :
    imgNormalize w path del =
      (Except.error (NormErr.conflict (computeNewPath path)), w) := by
  simp only [imgNormalize, hstat, hconf, if_neg hne]

theorem imgNormalize_delete_fails (w : World) (path : Str) (content : List Nat)
    (hstat : lookupFS w.fs path = some (Entry.file content))
    (hne : ¬ computeNewPath path = path)
    (hfree : lookupFS w.fs (computeNewPath path) = none)
    (hrf : path ∈ w.removeFails) :
    imgNormalize w path true =
      (Except.error (NormErr.removeFailed (computeNewPath path) path),
       { fs := writeFS w.fs (computeNewPath path) (Entry.file content),
         removeFails := w.removeFails }) := by
  simp only [imgNormalize, hstat, hfree, if_neg hne, if_pos hrf, if_true]

theorem imgNormalize_delete_ok (w : World) (path : Str) (content : List Nat)
    (hstat : lookupFS w.fs path = some (Entry.file content))
    (hne : ¬ computeNewPath path = path)
    (hfree : lookupFS w.fs (computeNewPath path) = none)
    (hrf : ¬ path ∈ w.removeFails) :
    imgNormalize w path true =
      (Except.ok NormOutcome.renamed,
       { fs := removeFS (writeFS w.fs (computeNewPath path) (Entry.file content)) path,
         removeFails := w.removeFails }) := by
  simp only [imgNormalize, hstat, hfree, if_neg hne, if_neg hrf, if_true]

theorem manyAux_world (del : Bool) (files : List Str) :
    ∀ w : World, (imgNormalizeManyAux del w files).2 =
      files.foldl (fun wa f => (imgNormalize wa f del).2) w := by
  induction files with
  | nil => intro w; rfl
  | cons f fs ih =>
    intro w
    simp only [imgNormalizeManyAux, List.foldl_cons]
    rcases h : (imgNormalize w f del).1 with e | o <;> simp [h, ih]

theorem manyAux_errs_mem (del : Bool) (files : List Str) :
    ∀ (w : World) (f : Str) (e : NormErr),
      (f, e) ∈ (imgNormalizeManyAux del w files).1 → f ∈ files := by
  induction files with
  | nil => intro w f e h; simp [imgNormalizeManyAux] at h
  | cons g gs ih =>
    intro w f e h
    rcases hg : (imgNormalize w g del).1 with e2 | o
    · simp only [imgNormalizeManyAux, hg] at h
      rcases List.mem_cons.mp h with h1 | h1
      · have hfg : f = g ∧ e = e2 := by simpa using h1
        exact List.mem_cons.mpr (Or.inl hfg.1)
      · exact List.mem_cons_of_mem _ (ih _ f e h1)
    · simp only [imgNormalizeManyAux, hg] at h
      exact List.mem_cons_of_mem _ (ih _ f e h)

theorem imgNormalizeMany_ok_iff (w : World) (files : List Str) (del : Bool) :
    (imgNormalizeMany w files del).1 = Except.ok () ↔
      (imgNormalizeManyAux del w files).1 = [] := by
  unfold imgNormalizeMany
  by_cases h : (imgNormalizeManyAux del w files).1 = []
  · simp [h]
  · simp [h]

theorem imgNormalizeMany_world (w : World) (files : List Str) (del : Bool) :
    (imgNormalizeMany w files del).2 =
      files.foldl (fun wa f => (imgNormalize wa f del).2) w := by
  unfold imgNormalizeMany
  exact manyAux_world del files w

theorem lookupFS_writeFS_self (fs : FS) (p : Str) (e : Entry) :
    lookupFS (writeFS fs p e) p = some e := by
  simp [writeFS, lookupFS]

theorem lookupFS_removeFS_other (fs : FS) (q p : Str) (h : ¬ q = p) :
    lookupFS (removeFS fs q) p = lookupFS fs p := by
  induction fs with
  | nil => rfl
  | cons kv fs ih =>
    rcases kv with ⟨r, e⟩
    by_cases hr : r = q
    · subst hr
      rw [removeFS, if_pos rfl, ih]
      rw [lookupFS, if_neg h]
    · rw [removeFS, if_neg hr]
      by_cases hp : r = p
      · subst hp
        rw [lookupFS, if_pos rfl, lookupFS, if_pos rfl]
      · rw [lookupFS, if_neg hp, lookupFS, if_neg hp, ih]

theorem lookupFS_writeFS_other (fs : FS) (q p : Str) (e : Entry) (h : ¬ q = p) :
    lookupFS (writeFS fs q e) p = lookupFS fs p := by
  rw [writeFS, lookupFS, if_neg h]
  exact lookupFS_removeFS_other fs q p h

/-- C1: for every input string (a base name with extension stripped),
`normalizeName` equals the reference function given by the specification's
five steps: lowercase, replace every maximal whitespace run with a single
hyphen, replace every maximal hyphen run with a single hyphen, strip leading
and trailing hyphens, and return the placeholder `"file"` when the result is
empty. -/
theorem c1_normalizeName_matches_reference :
    ∀ s : Str, normalizeName s = refNormalize s :=
  fun s => normalizeName_eq_refNormalize s

/-- C2 (counterexample): the original claim fails — the accepted input path
`"X_Y.txt"` yields new path `"x_y.txt"`, whose base `"x_y"` contains an
underscore, which is not a lowercase alphanumeric or a hyphen; the operation
nevertheless accepts the path and creates the normalized copy. -/
theorem c2_counterexample_underscore :
    (imgNormalize ⟨[("X_Y.txt".data, Entry.file [0])], []⟩ "X_Y.txt".data false).1 =
        Except.ok NormOutcome.created ∧
      computeNewPath "X_Y.txt".data = "x_y.txt".data ∧
      '_' ∈ baseOf (computeNewPath "X_Y.txt".data) ∧
      isLowerAlnumHyphen '_' = false := by
  refine ⟨?_, ?_, ?_, ?_⟩ <;> decide

/-- C2 (amended): for every input path, the normalized base from which the
new path is assembled is never empty, contains no whitespace characters, is
case-stable under lowering, contains no two adjacent hyphens, and neither
starts nor ends with a hyphen.  (The original "only lowercase alphanumerics
and hyphens" is false: underscores, dots and other punctuation pass
through.) -/
theorem c2_amended_base_invariant : ∀ path : Str,
    0 < (normalizeName (baseOf path)).length ∧
      (∀ c ∈ normalizeName (baseOf path), isSpace c = false ∧ lowerChar c = c) ∧
      List.Chain' NoTwoHyphens (normalizeName (baseOf path)) ∧
      (∀ c, (normalizeName (baseOf path)).head? = some c → ¬ c = '-') ∧
      (∀ c, (normalizeName (baseOf path)).getLast? = some c → ¬ c = '-') :=
  fun path =>
    ⟨normalizeName_length_pos _,
     fun c hc => normalizeName_mem_props _ c hc,
     normalizeName_chain _,
     fun c hc => normalizeName_head_not_hyphen _ c hc,
     fun c hc => normalizeName_last_not_hyphen _ c hc⟩

/-- C3: the name-normalization function is idempotent. -/
theorem c3_normalizeName_idempotent :
    ∀ s : Str, normalizeName (normalizeName s) = normalizeName s := by
  intro s
  rw [normalizeName_eq_refNormalize (normalizeName s), normalizeName_eq_refNormalize s]
  exact refNormalize_idem s

/-- C4: the name-normalization function is total (a Lean function) and never
returns an empty string; when the trimmed pipeline result is empty it returns
the placeholder `"file"`, otherwise the pipeline result itself. -/
theorem c4_normalizeName_total_nonempty : ∀ s : Str,
    0 < (normalizeName s).length ∧
      ((trimmedPipeline s = [] ∧ normalizeName s = "file".data) ∨
        normalizeName s = trimmedPipeline s) :=
  fun s =>
    ⟨normalizeName_length_pos s,
     (normalizeName_cases s).imp (fun h => h) (fun h => h.2)⟩

/-- C5: the batch apply processes every path in order (its final world is the
left fold of the single-file operation over the whole list, so a per-file
failure never aborts the batch), succeeds exactly when the collected per-file
error list is empty, and only files of the list are charged with errors; on
the concrete batch [a.TXT, /nonexistent, b.TXT] with deletion it renames
a.TXT to a.txt and b.TXT to b.txt and reports exactly one aggregated error
referencing /nonexistent. -/
theorem c5_batch_aggregates_and_continues :
    (∀ (w : World) (files : List Str) (del : Bool),
        (imgNormalizeMany w files del).2 =
            files.foldl (fun wa f => (imgNormalize wa f del).2) w ∧
          ((imgNormalizeMany w files del).1 = Except.ok () ↔
            (imgNormalizeManyAux del w files).1 = []) ∧
          (∀ f e, (f, e) ∈ (imgNormalizeManyAux del w files).1 → f ∈ files)) ∧
      ((imgNormalizeMany
            ⟨[("a.TXT".data, Entry.file [1]), ("b.TXT".data, Entry.file [2])], []⟩
            ["a.TXT".data, "/nonexistent".data, "b.TXT".data] true).1 =
          Except.error [("/nonexistent".data, NormErr.notFound "/nonexistent".data)] ∧
        lookupFS (imgNormalizeMany
            ⟨[("a.TXT".data, Entry.file [1]), ("b.TXT".data, Entry.file [2])], []⟩
            ["a.TXT".data, "/nonexistent".data, "b.TXT".data] true).2.fs
          "a.txt".data = some (Entry.file [1]) ∧
        lookupFS (imgNormalizeMany
            ⟨[("a.TXT".data, Entry.file [1]), ("b.TXT".data, Entry.file [2])], []⟩
            ["a.TXT".data, "/nonexistent".data, "b.TXT".data] true).2.fs
          "b.txt".data = some (Entry.file [2]) ∧
        lookupFS (imgNormalizeMany
            ⟨[("a.TXT".data, Entry.file [1]), ("b.TXT".data, Entry.file [2])], []⟩
            ["a.TXT".data, "/nonexistent".data, "b.TXT".data] true).2.fs
          "a.TXT".data = none ∧
        lookupFS (imgNormalizeMany
            ⟨[("a.TXT".data, Entry.file [1]), ("b.TXT".data, Entry.file [2])], []⟩
            ["a.TXT".data, "/nonexistent".data, "b.TXT".data] true).2.fs
          "b.TXT".data = none) := by
  constructor
  · intro w files del
    exact ⟨imgNormalizeMany_world w files del, imgNormalizeMany_ok_iff w files del,
      fun f e h => manyAux_errs_mem del files w f e h⟩
  · refine ⟨?_, ?_, ?_, ?_, ?_⟩ <;> decide

/-- C6: when a file (or directory) already exists at the computed new path and
that path differs from the original, the file-level apply fails with the
conflict error and leaves the filesystem exactly as it was. -/
theorem c6_conflict_never_overwrites : ∀ (w : World) (path : Str) (del : Bool)
    (content : List Nat) (e : Entry),
    lookupFS w.fs path = some (Entry.file content) →
    ¬ computeNewPath path = path →
    lookupFS w.fs (computeNewPath path) = some e →
    imgNormalize w path del =
      (Except.error (NormErr.conflict (computeNewPath path)), w) :=
  fun w path del content e h1 h2 h3 =>
    imgNormalize_conflict w path del content e h1 h2 h3

/-- C6 witness: a concrete conflicting pair of files. -/
theorem c6_witness :
    imgNormalize ⟨[("A.txt".data, Entry.file [1]), ("a.txt".data, Entry.file [2])], []⟩
        "A.txt".data true =
      (Except.error (NormErr.conflict (computeNewPath "A.txt".data)),
       ⟨[("A.txt".data, Entry.file [1]), ("a.txt".data, Entry.file [2])], []⟩) :=
  c6_conflict_never_overwrites
    ⟨[("A.txt".data, Entry.file [1]), ("a.txt".data, Entry.file [2])], []⟩
    "A.txt".data true [1] (Entry.file [2]) (by decide) (by decide) (by decide)

/-- C7: when the computed new path equals the original path, the file-level
apply reports no change, succeeds, and leaves the world untouched. -/
theorem c7_noChange_no_mutation : ∀ (w : World) (path : Str) (del : Bool)
    (content : List Nat),
    lookupFS w.fs path = some (Entry.file content) →
    computeNewPath path = path →
    imgNormalize w path del = (Except.ok NormOutcome.noChange, w) :=
  fun w path del content h1 h2 => imgNormalize_noChange w path del content h1 h2

/-- C7 witness: an already-canonical file name. -/
theorem c7_witness :
    imgNormalize ⟨[("a.txt".data, Entry.file [3])], []⟩ "a.txt".data true =
      (Except.ok NormOutcome.noChange, ⟨[("a.txt".data, Entry.file [3])], []⟩) :=
  c7_noChange_no_mutation ⟨[("a.txt".data, Entry.file [3])], []⟩
    "a.txt".data true [3] (by decide) (by decide)

/-- C8: with the deletion flag set, the original is removed only in the world
where the copy has already been written; when the removal fails the operation
surfaces the removal error while the copy remains at the new path and the
original file is still present (the copy is not rolled back). -/
theorem c8_delete_after_copy : ∀ (w : World) (path : Str) (content : List Nat),
    lookupFS w.fs path = some (Entry.file content) →
    ¬ computeNewPath path = path →
    lookupFS w.fs (computeNewPath path) = none →
    ((path ∈ w.removeFails →
        imgNormalize w path true =
          (Except.error (NormErr.removeFailed (computeNewPath path) path),
           { fs := writeFS w.fs (computeNewPath path) (Entry.file content),
             removeFails := w.removeFails })) ∧
      (¬ path ∈ w.removeFails →
        imgNormalize w path true =
          (Except.ok NormOutcome.renamed,
           { fs := removeFS (writeFS w.fs (computeNewPath path) (Entry.file content)) path,
             removeFails := w.removeFails })) ∧
      lookupFS (writeFS w.fs (computeNewPath path) (Entry.file content))
          (computeNewPath path) = some (Entry.file content) ∧
      lookupFS (writeFS w.fs (computeNewPath path) (Entry.file content)) path =
        some (Entry.file content)) :=
  fun w path content h1 h2 h3 =>
    ⟨fun hrf => imgNormalize_delete_fails w path content h1 h2 h3 hrf,
     fun hrf => imgNormalize_delete_ok w path content h1 h2 h3 hrf,
     lookupFS_writeFS_self w.fs (computeNewPath path) (Entry.file content),
     (lookupFS_writeFS_other w.fs (computeNewPath path) path (Entry.file content) h2).trans h1⟩

/-- C8 witness: a removal that fails leaves the copy in place and surfaces an
error. -/
theorem c8_witness :
    imgNormalize ⟨[("A.txt".data, Entry.file [7])], ["A.txt".data]⟩ "A.txt".data true =
      (Except.error (NormErr.removeFailed (computeNewPath "A.txt".data) "A.txt".data),
       { fs := writeFS [("A.txt".data, Entry.file [7])] (computeNewPath "A.txt".data)
           (Entry.file [7]),
         removeFails := ["A.txt".data] }) :=
  (c8_delete_after_copy ⟨[("A.txt".data, Entry.file [7])], ["A.txt".data]⟩
    "A.txt".data [7] (by decide) (by decide) (by decide)).1 (by decide)

/-- C9: the file-level apply splits the path into directory, base and
extension (the split is lossless on the base name), the extension is empty or
begins with a dot, the new name is exactly the normalized base followed by
the lowercased extension (character-wise lowering, length preserved,
otherwise unaltered), and the new path is the directory joined with that new
name. -/
theorem c9_split_lower_reassemble : ∀ path : Str,
    baseOf path ++ extOf path = goBase path ∧
      (extOf path = [] ∨ (extOf path).head? = some '.') ∧
      computeNewName path = normalizeName (baseOf path) ++ toLowerStr (extOf path) ∧
      computeNewPath path =
        goJoin (goDir path) (normalizeName (baseOf path) ++ toLowerStr (extOf path)) ∧
      (toLowerStr (extOf path)).length = (extOf path).length ∧
      (∀ i : Nat, (toLowerStr (extOf path)).getD i '.' =
        lowerChar ((extOf path).getD i '.')) :=
  fun path =>
    ⟨baseOf_append_extOf path,
     goExt_head_dot (goBase path),
     computeNewName_eq path,
     by unfold computeNewPath; rw [computeNewName_eq],
     by simp [toLowerStr],
     fun i => toLowerStr_getD _ i⟩

/-- C10 (counterexample): the original claim fails on inputs whose
normalization falls back to the placeholder: `normalizeName " "` is
`"file"`, and its character `f` is not a hyphen and not a character of the
lowercased input. -/
theorem c10_counterexample_fallback :
    'f' ∈ normalizeName " ".data ∧ ¬ 'f' = '-' ∧ ¬ 'f' ∈ toLowerStr " ".data := by
  refine ⟨?_, ?_, ?_⟩ <;> decide

/-- C10 (amended): for every input containing at least one character that is
neither `\s`-whitespace nor a hyphen, the non-hyphen characters of the
normalized name are exactly the non-whitespace non-hyphen characters of the
lowercased input, in order — in particular they form a sublist of the
lowercased input. -/
theorem c10_amended_passthrough : ∀ s : Str,
    (∃ c ∈ s, isSpace c = false ∧ ¬ c = '-') →
    (normalizeName s).filter nonHyphen =
        (toLowerStr s).filter (fun c => !(isSpace c) && nonHyphen c) ∧
      List.Sublist ((normalizeName s).filter nonHyphen) (toLowerStr s) := by
  intro s hex
  have hne := trimmedPipeline_ne_empty s hex
  rcases normalizeName_cases s with ⟨h1, _⟩ | ⟨_, h2⟩
  · exact absurd h1 hne
  · rw [h2, filter_trimmedPipeline s]
    exact ⟨rfl, List.filter_sublist _⟩

/-- C10 witness: a concrete input with pass-through characters. -/
theorem c10_witness :
    (normalizeName "A b".data).filter nonHyphen =
        (toLowerStr "A b".data).filter (fun c => !(isSpace c) && nonHyphen c) ∧
      List.Sublist ((normalizeName "A b".data).filter nonHyphen)
        (toLowerStr "A b".data) :=
  c10_amended_passthrough "A b".data (by decide)

end CmdImg
